import Mathlib

/-!
Verification development for the Shopee affiliate offer-publishing pipeline
(`shopee_bot.py`, `rescue_publish.py`, `storage.py`, `ev_signal.py`,
`scoring.py`).

The pure algorithmic core is embedded shallowly:

* offers are `Product` records carrying the fields the pipeline reads
  (`itemId`, `ratingStar`, `priceDiscountRate`, `sales`) together with the
  values of the derived name analyses (`tag_categoria`, `norm_name`,
  `make_signature_key`, `is_blocked`), which the Python code computes from
  the product name with regular expressions;
* numeric scores are `ℚ` (idealizing Python floats), and the EV-signal
  estimator — the only place the code uses `exp` — is embedded over `ℝ`;
* database- and network-backed collaborators (`Storage.can_repost`,
  `publish_func`, the EV value looked up per item) enter as function
  parameters, exactly as `publish_with_rescue` receives them in the source;
* the rescue publisher is embedded as explicit state passing; its state
  additionally records the trace of identifiers for which the external
  publish function was invoked, which is the observable behaviour of the
  source loop.
-/

namespace ShopeeBot

/-- Feature signature produced by `make_signature_key` in `shopee_bot.py`:
category tag, optional brand guess, optional DPI figure, optional button
count, all extracted from the product name. -/
abbrev Sig := String × Option String × Option Nat × Option Nat

/-- One offer as the pipeline sees it.  `cat`, `nrm`, `sig` and `blockedName`
hold the values of `tag_categoria`, `norm_name`, `make_signature_key` and
`is_blocked` applied to the offer's product name (those are pure,
regex-based analyses of the name; the pipeline only ever consumes their
results). -/
structure Product where
  pid : Nat
  rating : ℚ
  disc : ℚ
  sales : Nat
  cat : String
  nrm : String
  sig : Sig
  blockedName : Bool
  deriving DecidableEq, Repr

/-! ## Repost cooldown tracker (`storage.py`, `Storage.can_repost`)

Timestamps are modelled in seconds (one day = 86400 s), matching the
`datetime`/`timedelta` arithmetic of the source.  `lastPostedAt` is the
most recent `posted_at` of the offer's Post Records, `none` when the offer
was never posted. -/

/-- Embedding of `Storage.can_repost`: `True` when there is no prior post,
otherwise `utcnow() >= last_dt + timedelta(days=cooldown_days)`. -/
def can_repost (now : Int) (lastPostedAt : Option Int) (cooldownDays : Int) : Bool :=
  match lastPostedAt with
  | none => true
  | some last => decide (last + cooldownDays * 86400 ≤ now)

/-- The cooldown predicate as the spec words it: repost allowed iff there is
no prior Post Record or the most recent one is strictly older than
`cooldownDays`. -/
def can_repost_spec (now : Int) (lastPostedAt : Option Int) (cooldownDays : Int) : Prop :=
  lastPostedAt = none ∨
    ∃ last, lastPostedAt = some last ∧ cooldownDays * 86400 < now - last

instance (now : Int) (l : Option Int) (cd : Int) :
    Decidable (can_repost_spec now l cd) := by
  unfold can_repost_spec
  cases l with
  | none => exact .isTrue (Or.inl rfl)
  | some last =>
      by_cases h : cd * 86400 < now - last
      · exact .isTrue (Or.inr ⟨last, rfl, h⟩)
      · refine .isFalse ?_
        rintro (hc | ⟨x, hx, hlt⟩)
        · exact Option.noConfusion hc
        · cases Option.some.injEq .. ▸ hx
          exact h (by simpa using hlt)

/-! ## Composite final score (`shopee_bot.py`, `main`, ranking loop)

In the ranking loop the code computes
`final = 0.45 * ia_n + 0.25 * disc_n + 0.30 * ev` with
`ia_n = ia_score / 100.0` and `disc_n = float(p.get("priceDiscountRate") or 0.0)`
taken as-is (no clamping). -/

/-- Embedding of the composite final score computed in the ranking loop of
`main` (`shopee_bot.py` lines 744–747). -/
def final_score (iaScore disc ev : ℚ) : ℚ :=
  0.45 * (iaScore / 100) + 0.25 * disc + 0.30 * ev

/-- The composite score as the spec words it, with the discount term
clamped into `[0,1]` before weighting. -/
def final_score_spec (iaScore disc ev : ℚ) : ℚ :=
  0.45 * (iaScore / 100) + 0.25 * (max 0 (min 1 disc)) + 0.30 * ev

/-- One entry of the ranked pool: the composite score paired with the
offer (the `ia` dict of the source tuple only contributes its
`pontuacao`, carried here as `iaScore`). -/
structure RankedItem where
  final : ℚ
  iaScore : ℚ
  prod : Product
  deriving DecidableEq, Repr

/-- Embedding of the ranking-pool construction in `main`
(`shopee_bot.py` lines 735–748): look up the relevance score, drop the
offer when it is absent or below `minIa` (hard gate), otherwise attach
`final_score`.  `iaById` is the relevance score table, `ev` the EV-signal
value per item id.  (The subsequent `sort` only permutes the pool and is
irrelevant to the gate.) -/
def buildRanked (iaById : Nat → Option ℚ) (minIa : ℚ) (ev : Nat → ℚ) :
    List Product → List RankedItem
  | [] => []
  | p :: rest =>
    match iaById p.pid with
    | none => buildRanked iaById minIa ev rest
    | some s =>
      if s < minIa then buildRanked iaById minIa ev rest
      else ⟨final_score s p.disc (ev p.pid), s, p⟩ :: buildRanked iaById minIa ev rest

/-! ## EV signal estimator (`ev_signal.py`)

`compute_ev_signal` queries SQLite for three trailing-window commission
sums (exact item, shop, most-frequent historical category) and blends
saturated versions of them.  The embedding takes the three sums as real
inputs; the `shop_name`-missing branch (line 29: the shop query is only
issued when the name is truthy, otherwise `shop_ev` stays `0.0`) is
modelled by `compute_ev_signal_shop`. -/

/-- The item-level saturation constant (`_sigmoid_like(item_ev, 30.0)`). -/
noncomputable def k_item : ℝ := 30

/-- The shop-level saturation constant (`_sigmoid_like(shop_ev, 80.0)`). -/
noncomputable def k_shop : ℝ := 80

/-- The category-level saturation constant (`_sigmoid_like(cat_ev, 150.0)`). -/
noncomputable def k_cat : ℝ := 150

/-- Embedding of `_sigmoid_like` (`ev_signal.py` lines 6–8): `0.0` for
non-positive input, otherwise `1.0 - exp(-x / max(1e-9, k))`. -/
noncomputable def sigmoid_like (x : ℝ) (k : ℝ) : ℝ :=
  if x ≤ 0 then 0 else 1 - Real.exp (-x / max (1 / 1000000000) k)

/-- Embedding of the final blend of `compute_ev_signal`
(`ev_signal.py` lines 64–67) as a function of the three trailing-window
commission sums. -/
noncomputable def compute_ev_signal (item_ev shop_ev cat_ev : ℝ) : ℝ :=
  0.6 * sigmoid_like item_ev k_item + 0.3 * sigmoid_like shop_ev k_shop +
    0.1 * sigmoid_like cat_ev k_cat

/-- Embedding of the `shop_name` handling of `compute_ev_signal`: the shop
commission query is only issued when a shop name is present (`none` also
stands for the falsy empty string), otherwise the shop sum stays `0.0`. -/
noncomputable def compute_ev_signal_shop (shopName : Option String)
    (item_ev shopSum cat_ev : ℝ) : ℝ :=
  compute_ev_signal item_ev
    (match shopName with
     | none => 0
     | some _ => shopSum) cat_ev

/-- The spec's reference saturating curve `f(x) = 1 - exp(-x / k)`. -/
noncomputable def f_sat (x k : ℝ) : ℝ := 1 - Real.exp (-x / k)

/-- The EV signal as the spec's reference definition words it: each
commission sum mapped through `f_sat` with its granularity constant, then
combined with weights 0.6 / 0.3 / 0.1. -/
noncomputable def ev_signal_ref (item_ev shop_ev cat_ev : ℝ) : ℝ :=
  0.6 * f_sat item_ev k_item + 0.3 * f_sat shop_ev k_shop + 0.1 * f_sat cat_ev k_cat

/-! ## Diversity-capped selector (`shopee_bot.py`, `select_with_caps_and_dedupe`)

The function receives the ranked tuples, the target `max_posts`, the
category share `max_share`, and consults `db.can_repost` — modelled here by
the boolean predicate `canR` on item ids (the cooldown days are fixed for
the whole call). -/

/-- Python `int()` truncation toward zero on a rational. -/
def pyInt (q : ℚ) : Int := if q < 0 then ⌈q⌉ else ⌊q⌋

/-- The per-category cap `max(1, int(max_posts * max_share))` of
`select_with_caps_and_dedupe`. -/
def catCap (maxPosts : Nat) (maxShare : ℚ) : Nat :=
  (max 1 (pyInt (maxPosts * maxShare))).toNat

/-- First (strict) loop of `select_with_caps_and_dedupe`: walk the ranked
list, skip zero ids, cooldown-blocked items, already-seen normalized names
and categories at the cap; otherwise append, record the name and bump the
category counter; stop at `maxPosts` accepted. -/
def selectPass1 (maxPosts cap : Nat) (canR : Nat → Bool) :
    List RankedItem → List RankedItem → (String → Nat) → List String →
      List RankedItem × (String → Nat) × List String
  | [], chosen, counts, seen => (chosen, counts, seen)
  | t :: rest, chosen, counts, seen =>
    if maxPosts ≤ chosen.length then (chosen, counts, seen)
    else if t.prod.pid = 0 then selectPass1 maxPosts cap canR rest chosen counts seen
    else if canR t.prod.pid = false then selectPass1 maxPosts cap canR rest chosen counts seen
    else if t.prod.nrm ∈ seen then selectPass1 maxPosts cap canR rest chosen counts seen
    else if cap ≤ counts t.prod.cat then selectPass1 maxPosts cap canR rest chosen counts seen
    else
      selectPass1 maxPosts cap canR rest (chosen ++ [t])
        (fun c => if c = t.prod.cat then counts c + 1 else counts c)
        (t.prod.nrm :: seen)

/-- Second (backfill) loop of `select_with_caps_and_dedupe`, entered when
the strict pass selected fewer than `max_posts` offers: same walk over the
same ranked list, but ignoring category caps. -/
def selectPass2 (maxPosts : Nat) (canR : Nat → Bool) :
    List RankedItem → List RankedItem → List String → List RankedItem × List String
  | [], chosen, seen => (chosen, seen)
  | t :: rest, chosen, seen =>
    if maxPosts ≤ chosen.length then (chosen, seen)
    else if t.prod.pid = 0 ∨ canR t.prod.pid = false then
      selectPass2 maxPosts canR rest chosen seen
    else if t.prod.nrm ∈ seen then selectPass2 maxPosts canR rest chosen seen
    else selectPass2 maxPosts canR rest (chosen ++ [t]) (t.prod.nrm :: seen)

/-- Embedding of `select_with_caps_and_dedupe` (`shopee_bot.py` lines
752–792): the strict capped pass, then — only when short of `max_posts` —
the cap-ignoring backfill pass over the same ranked list. -/
def select_with_caps_and_dedupe (maxPosts : Nat) (maxShare : ℚ) (canR : Nat → Bool)
    (ranked : List RankedItem) : List RankedItem :=
  let r1 := selectPass1 maxPosts (catCap maxPosts maxShare) canR ranked [] (fun _ => 0) []
  if r1.1.length < maxPosts then (selectPass2 maxPosts canR ranked r1.1 r1.2.2).1
  else r1.1

/-- The shortlist produced by the strict pass alone. -/
def selectStrict (maxPosts : Nat) (maxShare : ℚ) (canR : Nat → Bool)
    (ranked : List RankedItem) : List RankedItem :=
  (selectPass1 maxPosts (catCap maxPosts maxShare) canR ranked [] (fun _ => 0) []).1

/-- Number of offers of category `c` in a shortlist. -/
def catCount (c : String) (l : List RankedItem) : Nat :=
  l.countP (fun t => t.prod.cat == c)

/-- Concrete repostable offer of category "a", normalized name "n1". -/
def offerA1 : Product := ⟨1, 24/5, 3/10, 100, "a", "n1", ("a", none, none, none), false⟩

/-- Concrete repostable offer of category "a", normalized name "n2". -/
def offerA2 : Product := ⟨2, 24/5, 3/10, 100, "a", "n2", ("a", none, none, none), false⟩

/-- Concrete repostable offer of category "a", normalized name "n3". -/
def offerA3 : Product := ⟨3, 24/5, 3/10, 100, "a", "n3", ("a", none, none, none), false⟩

/-- Three ranked same-category offers in descending score order. -/
def rankedAAA : List RankedItem :=
  [⟨9/10, 80, offerA1⟩, ⟨8/10, 80, offerA2⟩, ⟨7/10, 80, offerA3⟩]

/-- A single ranked offer. -/
def rankedA1 : List RankedItem := [⟨9/10, 80, offerA1⟩]

/-! ## Guaranteed-volume publisher (`rescue_publish.py`, `publish_with_rescue`)

The collaborators of `publish_with_rescue` are function parameters in the
source as well: `can_repost` (cooldown predicate on item ids), the
external `publish_func` (success outcome per offer; each id is attempted
at most once, so a per-offer outcome function covers every sequence of
outcomes), and the optional `collect_relaxed` re-collection, whose result
list `extra?` the embedding takes directly. -/

/-- Publisher state: the returned counters `posted`/`tried`, the `seen`
id set, and — as the observable behaviour of the loops — `pubs`, the
trace of item ids for which `publish_func` was invoked, in call order. -/
structure RState where
  posted : Nat
  tried : Nat
  seen : List Nat
  pubs : List Nat
  deriving DecidableEq, Repr

/-- Initial publisher state: `posted = 0`, `tried = 0`, empty `seen`. -/
def RState.start : RState := ⟨0, 0, [], []⟩

/-- One attempted publication (shared body of the three passes): mark the
id seen, count the attempt, count the success when the external publish
function returns true, and record the invocation in the trace. -/
def attempt (pub : Product → Bool) (p : Product) (s : RState) : RState :=
  { posted := s.posted + (if pub p then 1 else 0)
    tried := s.tried + 1
    seen := p.pid :: s.seen
    pubs := s.pubs ++ [p.pid] }

/-- Embedding of `_pick_next`: the first offer at or after the current
index with a nonzero id, not yet seen, and passing the cooldown check —
returned together with the suffix after it (the new `idx`). -/
def pickNext (seen : List Nat) (canR : Nat → Bool) :
    List Product → Option (Product × List Product)
  | [] => none
  | p :: rest =>
    if p.pid ≠ 0 ∧ p.pid ∉ seen ∧ canR p.pid = true then some (p, rest)
    else pickNext seen canR rest

/-- Pass 1 of `publish_with_rescue` (lines 37–50): while below
`max_posts`, `_pick_next` the next eligible offer, mark it seen, attempt
it and continue after it.  The Python loop advances an index into the
ranking; the embedding carries the remaining suffix instead, plus a fuel
argument that the caller instantiates with the pool length, an upper
bound on the iteration count (every hit advances the index, so with that
fuel the zero-fuel base is only reached on an empty suffix, where the
loop also stops; `passOne_fuel` below makes this congruence precise).
The returned list is the suffix after the last processed offer (Python's
`ranked[idx:]`), over which pass 2 then runs. -/
def passOne (maxPosts : Nat) (canR : Nat → Bool) (pub : Product → Bool) :
    Nat → List Product → RState → RState × List Product
  | 0, pool, s => (s, pool)
  | fuel + 1, pool, s =>
    if maxPosts ≤ s.posted then (s, pool)
    else
      match pickNext s.seen canR pool with
      | none => (s, pool)
      | some (p, rest) => passOne maxPosts canR pub fuel rest (attempt pub p s)

/-- Pass 2 of `publish_with_rescue` (lines 52–62) and, verbatim, the loop
body of the rescue pass 3 (lines 68–77): walk the pool, attempt each
eligible offer, mark it seen, stop at `max_posts`. -/
def passTwo (maxPosts : Nat) (canR : Nat → Bool) (pub : Product → Bool) :
    List Product → RState → RState
  | [], s => s
  | p :: rest, s =>
    if maxPosts ≤ s.posted then s
    else if p.pid ≠ 0 ∧ p.pid ∉ s.seen ∧ canR p.pid = true then
      passTwo maxPosts canR pub rest (attempt pub p s)
    else passTwo maxPosts canR pub rest s

/-- Embedding of `publish_with_rescue` (`rescue_publish.py` lines 10–79):
strict pass over the ranking, backfill pass over the remaining suffix,
then — only on a shortfall and when the collaborator is provided — the
rescue pass over the relaxed re-collection `extra?`. -/
def publish_with_rescue (ranked : List Product) (maxPosts : Nat)
    (canR : Nat → Bool) (pub : Product → Bool) (extra? : Option (List Product)) : RState :=
  let r1 := passOne maxPosts canR pub ranked.length ranked RState.start
  let s2 := passTwo maxPosts canR pub r1.2 r1.1
  match extra? with
  | none => s2
  | some extra => if s2.posted < maxPosts then passTwo maxPosts canR pub extra s2 else s2

/-- The safety invariant of the publisher state: the success count is
bounded by the target and by the attempt count, and the trace of
publish-function invocations has pairwise-distinct ids, all of them
seen and all of them passing the cooldown predicate. -/
def RInv (maxPosts : Nat) (canR : Nat → Bool) (s : RState) : Prop :=
  s.posted ≤ maxPosts ∧ s.posted ≤ s.tried ∧ s.pubs.Nodup ∧
    (∀ x ∈ s.pubs, x ∈ s.seen) ∧ (∀ x ∈ s.pubs, canR x = true)

/-! ## Normalizer / deduplicator (`shopee_bot.py`, `dedupe_by_signature`
and the id-keyed dedup of `coletar_ofertas`) -/

/-- Embedding of `heuristic_score` (`shopee_bot.py` lines 484–500):
`0.45 * discount + 0.35 * rating_n + 0.20 * ev`, where `rating_n` clamps
`(rating - 4.5) / 0.5` into `[0,1]` and `ev` is the DB-backed EV-signal
value per item id, supplied as an oracle parameter. -/
def heuristic_score (ev : Nat → ℚ) (p : Product) : ℚ :=
  0.45 * p.disc + 0.35 * max 0 (min 1 ((p.rating - 4.5) / 0.5)) + 0.20 * ev p.pid

/-- One dict update of `dedupe_by_signature` (`shopee_bot.py` lines
529–536), with Python dict semantics: an existing key keeps its insertion
position and its value is overwritten only when the new score is strictly
higher; a new key is appended at the end. -/
def updateBucket (key : Sig) (score : ℚ) (p : Product) :
    List (Sig × ℚ × Product) → List (Sig × ℚ × Product)
  | [] => [(key, score, p)]
  | e :: rest =>
    if e.1 = key then (if e.2.1 < score then (key, score, p) else e) :: rest
    else e :: updateBucket key score p rest

/-- The bucket map built by `dedupe_by_signature` over the candidates. -/
def bucketsOf (hscore : Product → ℚ) (cands : List Product) : List (Sig × ℚ × Product) :=
  cands.foldl (fun b p => updateBucket p.sig (hscore p) p b) []

/-- Embedding of `dedupe_by_signature` (`shopee_bot.py` lines 529–536):
`list(buckets.values())` — per feature signature the first candidate of
maximal pre-score, in key-insertion order. -/
def dedupe_by_signature (hscore : Product → ℚ) (cands : List Product) : List Product :=
  (bucketsOf hscore cands).map (fun e => e.2.2)

/-- Per-entry invariant of the bucket map, relative to the processed
prefix `done`: the key is the stored offer's signature, the stored score
is its pre-score, the offer was processed, and its score is maximal among
processed offers of that signature. -/
def EntryOk (hscore : Product → ℚ) (done : List Product) (e : Sig × ℚ × Product) : Prop :=
  e.1 = e.2.2.sig ∧ e.2.1 = hscore e.2.2 ∧ e.2.2 ∈ done ∧
    ∀ q ∈ done, q.sig = e.1 → hscore q ≤ e.2.1

/-- Invariant of the whole bucket map relative to the processed prefix. -/
def BucketInv (hscore : Product → ℚ) (done : List Product)
    (b : List (Sig × ℚ × Product)) : Prop :=
  (b.map (fun e => e.1)).Nodup ∧ (∀ e ∈ b, EntryOk hscore done e) ∧
    (∀ q ∈ done, q.sig ∈ b.map (fun e => e.1))

/-- One update of the id-keyed dict comprehension
`dedup = {it["itemId"]: it for it in ofertas}` of `coletar_ofertas`
(`shopee_bot.py` line 289): an existing id keeps its insertion position
and its value is overwritten unconditionally (last-seen wins); a new id
is appended at the end. -/
def updateById (p : Product) : List (Nat × Product) → List (Nat × Product)
  | [] => [(p.pid, p)]
  | e :: rest => if e.1 = p.pid then (e.1, p) :: rest else e :: updateById p rest

/-- Embedding of the exact-identifier dedup of `coletar_ofertas`
(`shopee_bot.py` lines 289–290): `list(dedup.values())` — per id the
last-seen record, in first-occurrence order. -/
def dedupe_by_id (l : List Product) : List Product :=
  (l.foldl (fun b p => updateById p b) []).map (fun e => e.2)

/-- Invariant of the id-keyed dict relative to the processed prefix:
distinct keys, each entry stores a record carrying that id drawn from the
prefix, and the entry for id `k` is exactly the last processed record
with id `k`. -/
def IdInv (done : List Product) (b : List (Nat × Product)) : Prop :=
  (b.map (fun e => e.1)).Nodup ∧ (∀ e ∈ b, e.2.pid = e.1 ∧ e.2 ∈ done) ∧
    ∀ k, b.find? (fun e => e.1 == k) =
      ((done.filter (fun p => p.pid == k)).getLast?).map (fun q => (k, q))

/-! ## Relaxed re-collection (`shopee_bot.py`, `collect_relaxed`) -/

/-- The relaxed quality filter of `collect_relaxed` (`shopee_bot.py`
lines 879–893): blocklist still applied, then
`rating >= max(4.5, MIN_RATING - 0.3)`,
`disc >= max(0.05, MIN_DISCOUNT - 0.08)` and
`sales >= max(20, MIN_SALES_DEFAULT // 4)`. -/
def relaxed_keep (minRating minDiscount : ℚ) (minSalesDefault : Nat) (p : Product) : Bool :=
  !p.blockedName && decide (max 4.5 (minRating - 0.3) ≤ p.rating) &&
    decide (max 0.05 (minDiscount - 0.08) ≤ p.disc) &&
    decide (max 20 (minSalesDefault / 4) ≤ p.sales)

/-- Stable insertion modelling Python's stable
`sorted(..., key=heuristic_score, reverse=True)`: a new element goes
after every element of score greater or equal to its own, so
earlier equal-scored elements stay first; a stable descending sort is
unique as a function of the input, so this computes exactly the
source's ordering. -/
def insertByScore (hscore : Product → ℚ) (p : Product) : List Product → List Product
  | [] => [p]
  | q :: rest =>
    if hscore p ≤ hscore q then q :: insertByScore hscore p rest
    else p :: q :: rest

/-- Descending stable sort by heuristic pre-score. -/
def sortByScoreDesc (hscore : Product → ℚ) (l : List Product) : List Product :=
  l.foldl (fun acc p => insertByScore hscore p acc) []

/-- Embedding of `collect_relaxed` (`shopee_bot.py` lines 872–904):
relaxed quality filter over the raw collection, signature dedupe, then
descending order by heuristic pre-score.  (The final enrichment loop only
copies the offers, attaching display fields.) -/
def collect_relaxed (minRating minDiscount : ℚ) (minSalesDefault : Nat)
    (hscore : Product → ℚ) (gross : List Product) : List Product :=
  sortByScoreDesc hscore (dedupe_by_signature hscore
    (gross.filter (relaxed_keep minRating minDiscount minSalesDefault)))

/-- The rescue prioritization claimed by the spec: in the rescue pool
every never-posted offer precedes every previously-posted offer. -/
def rescue_prioritized (lastPosted : Nat → Option Int) (pool : List Product) : Prop :=
  pool.Pairwise (fun a b => lastPosted b.pid = none → lastPosted a.pid = none)

/-- Concrete offer with relevance 50: id 7, rating 4.8, discount 0.3,
100 sales, not blocklisted. -/
def offerLowIa : Product := ⟨7, 4.8, 0.3, 100, "a", "n7", ("a", none, none, none), false⟩

/-- Relevance table giving offer 7 a score of 50, below the default
threshold of 65. -/
def iaLow : Nat → Option ℚ := fun pid => if pid = 7 then some 50 else none

/-- A previously-posted offer of high heuristic score: id 11, rating 5,
discount 0.5. -/
def offerX : Product := ⟨11, 5, 0.5, 100, "a", "nx", ("a", none, none, none), false⟩

/-- A never-posted offer of low heuristic score: id 12, rating 4.6,
discount 0.1. -/
def offerY : Product := ⟨12, 4.6, 0.1, 100, "b", "ny", ("b", none, none, none), false⟩

/-- Posting history oracle: offer 11 was posted at epoch 0, nothing else
was ever posted. -/
def lastPostedXY : Nat → Option Int := fun pid => if pid = 11 then some 0 else none

/-! ## Verified properties -/

theorem sigmoid_like_nonneg (x k : ℝ) : 0 ≤ sigmoid_like x k := by
  unfold sigmoid_like
  split
  · exact le_refl 0
  · rename_i hx
    have hx' : (0 : ℝ) < x := lt_of_not_le hx
    have hK : (0 : ℝ) < max (1 / 1000000000) k :=
      lt_max_of_lt_left (by norm_num)
    have hdiv : -x / max (1 / 1000000000) k ≤ 0 := by
      apply div_nonpos_of_nonpos_of_nonneg (by linarith) (le_of_lt hK)
    have := Real.exp_le_exp.mpr hdiv
    rw [Real.exp_zero] at this
    linarith

theorem sigmoid_like_le_one (x k : ℝ) : sigmoid_like x k ≤ 1 := by
  unfold sigmoid_like
  split
  · norm_num
  · have := Real.exp_pos (-x / max (1 / 1000000000) k)
    linarith

theorem sigmoid_like_mono (k : ℝ) {x y : ℝ} (h : x ≤ y) :
    sigmoid_like x k ≤ sigmoid_like y k := by
  unfold sigmoid_like
  split
  · exact le_trans (le_refl 0) (by
      have := sigmoid_like_nonneg y k
      unfold sigmoid_like at this
      exact this)
  · rename_i hx
    have hx' : (0 : ℝ) < x := lt_of_not_le hx
    have hy : ¬ y ≤ 0 := by linarith
    rw [if_neg hy]
    have hK : (0 : ℝ) < max (1 / 1000000000) k :=
      lt_max_of_lt_left (by norm_num)
    have hdiv : x / max (1 / 1000000000) k ≤ y / max (1 / 1000000000) k :=
      (div_le_div_iff_of_pos_right hK).mpr h
    have := Real.exp_le_exp.mpr (neg_le_neg hdiv)
    simp only [neg_div]
    linarith

theorem sigmoid_like_of_nonpos {x : ℝ} (k : ℝ) (h : x ≤ 0) : sigmoid_like x k = 0 := by
  unfold sigmoid_like
  rw [if_pos h]

theorem sigmoid_like_eq_f_sat {x k : ℝ} (hx : 0 ≤ x) (hk : 1 / 1000000000 ≤ k) :
    sigmoid_like x k = f_sat x k := by
  unfold sigmoid_like f_sat
  rcases eq_or_lt_of_le hx with h | h
  · rw [if_pos (le_of_eq h.symm), ← h, neg_zero, zero_div, Real.exp_zero]
    ring
  · rw [if_neg (not_le.mpr h), max_eq_right hk]

/-- C4: for every input — including the zero sums of an empty conversion
history — the EV signal lies in `[0,1]`, and it is monotonically
non-decreasing in each of the three trailing-window commission sums
(item, shop, category). -/
theorem ev_signal_bounded_and_monotone
    (i i' s s' c c' : ℝ) (hi : i ≤ i') (hs : s ≤ s') (hc : c ≤ c') :
    (0 ≤ compute_ev_signal i s c ∧ compute_ev_signal i s c ≤ 1) ∧
    compute_ev_signal i s c ≤ compute_ev_signal i' s c ∧
    compute_ev_signal i s c ≤ compute_ev_signal i s' c ∧
    compute_ev_signal i s c ≤ compute_ev_signal i s c' := by
  have n1 := sigmoid_like_nonneg i k_item
  have n2 := sigmoid_like_nonneg s k_shop
  have n3 := sigmoid_like_nonneg c k_cat
  have n1' := sigmoid_like_nonneg i' k_item
  have u1 := sigmoid_like_le_one i k_item
  have u2 := sigmoid_like_le_one s k_shop
  have u3 := sigmoid_like_le_one c k_cat
  have m1 := sigmoid_like_mono k_item hi
  have m2 := sigmoid_like_mono k_shop hs
  have m3 := sigmoid_like_mono k_cat hc
  unfold compute_ev_signal
  exact ⟨⟨by linarith, by linarith⟩, by linarith, by linarith, by linarith⟩

/-- Witness for C4 at the concrete sums (0,0,0) ≤ (1,1,1). -/
theorem ev_signal_bounded_and_monotone_witness :
    (0 ≤ compute_ev_signal 0 0 0 ∧ compute_ev_signal 0 0 0 ≤ 1) ∧
    compute_ev_signal 0 0 0 ≤ compute_ev_signal 1 0 0 ∧
    compute_ev_signal 0 0 0 ≤ compute_ev_signal 0 1 0 ∧
    compute_ev_signal 0 0 0 ≤ compute_ev_signal 0 0 1 :=
  ev_signal_bounded_and_monotone 0 1 0 1 0 1 (by norm_num) (by norm_num) (by norm_num)

/-- C5 counterexample: at a negative item-level commission sum the code's
guarded curve returns 0 (`_sigmoid_like` short-circuits on `x <= 0`) while
the spec's reference curve `1 - exp(-x/k)` is negative there, so
`compute_ev_signal` is not equal to the reference definition. -/
theorem ev_signal_ref_counterexample :
    compute_ev_signal (-30) 0 0 ≠ ev_signal_ref (-30) 0 0 := by
  have h1 : sigmoid_like (-30) k_item = 0 := sigmoid_like_of_nonpos _ (by norm_num)
  have h2 : sigmoid_like 0 k_shop = 0 := sigmoid_like_of_nonpos _ le_rfl
  have h3 : sigmoid_like 0 k_cat = 0 := sigmoid_like_of_nonpos _ le_rfl
  have hf1 : f_sat (-30) k_item = 1 - Real.exp 1 := by
    unfold f_sat k_item
    norm_num
  have hf2 : f_sat 0 k_shop = 0 := by
    unfold f_sat
    rw [neg_zero, zero_div, Real.exp_zero]
    ring
  have hf3 : f_sat 0 k_cat = 0 := by
    unfold f_sat
    rw [neg_zero, zero_div, Real.exp_zero]
    ring
  have he := Real.exp_one_gt_d9
  unfold compute_ev_signal ev_signal_ref
  rw [h1, h2, h3, hf1, hf2, hf3]
  intro h
  nlinarith

/-- C5 amended: for nonnegative commission sums (`_sigmoid_like` clamps
negative sums to 0 before the curve) the code's EV signal equals the
spec's reference formula exactly; the saturation constants are ordered
`k_item < k_shop < k_cat`; a missing shop name zeroes the shop term; and
an offer with no history at all scores exactly 0. -/
theorem ev_signal_matches_ref (i s c : ℝ) (hi : 0 ≤ i) (hs : 0 ≤ s) (hc : 0 ≤ c) :
    compute_ev_signal i s c = ev_signal_ref i s c ∧
    (k_item < k_shop ∧ k_shop < k_cat) ∧
    (∀ shopSum, compute_ev_signal_shop none i shopSum c = compute_ev_signal i 0 c) ∧
    compute_ev_signal 0 0 0 = 0 := by
  refine ⟨?_, ⟨?_, ?_⟩, fun _ => rfl, ?_⟩
  · unfold compute_ev_signal ev_signal_ref
    rw [sigmoid_like_eq_f_sat hi (by unfold k_item; norm_num),
      sigmoid_like_eq_f_sat hs (by unfold k_shop; norm_num),
      sigmoid_like_eq_f_sat hc (by unfold k_cat; norm_num)]
  · unfold k_item k_shop
    norm_num
  · unfold k_shop k_cat
    norm_num
  · unfold compute_ev_signal
    rw [sigmoid_like_of_nonpos _ le_rfl, sigmoid_like_of_nonpos _ le_rfl,
      sigmoid_like_of_nonpos _ le_rfl]
    ring

/-- Witness for the amended C5 at the concrete sums (1,2,3). -/
theorem ev_signal_matches_ref_witness :
    compute_ev_signal 1 2 3 = ev_signal_ref 1 2 3 ∧
    (k_item < k_shop ∧ k_shop < k_cat) ∧
    (∀ shopSum, compute_ev_signal_shop none 1 shopSum 3 = compute_ev_signal 1 0 3) ∧
    compute_ev_signal 0 0 0 = 0 :=
  ev_signal_matches_ref 1 2 3 (by norm_num) (by norm_num) (by norm_num)

/-- C8 counterexample: a Post Record exactly `cooldownDays` old is not
strictly older than `cooldownDays`, yet `can_repost` already allows the
repost (the source compares with `>=`). -/
theorem can_repost_counterexample :
    can_repost 432000 (some 0) 5 = true ∧ ¬ can_repost_spec 432000 (some 0) 5 := by
  constructor
  · decide
  · decide

/-- C8 amended: `can_repost` returns true iff the offer has no prior Post
Record or its most recent Post Record is at least `cooldownDays` old
(boundary inclusive); in particular with `cooldownDays = 5` a post 3 days
ago blocks the repost now and 6 more days re-allow it. -/
theorem can_repost_iff (now : Int) (lastPostedAt : Option Int) (cooldownDays : Int) :
    (can_repost now lastPostedAt cooldownDays = true ↔
      (lastPostedAt = none ∨
        ∃ last, lastPostedAt = some last ∧ cooldownDays * 86400 ≤ now - last)) ∧
    can_repost now (some (now - 3 * 86400)) 5 = false ∧
    can_repost (now + 6 * 86400) (some (now - 3 * 86400)) 5 = true := by
  refine ⟨?_, ?_, ?_⟩
  · cases lastPostedAt with
    | none => simp [can_repost]
    | some last =>
        simp only [can_repost, decide_eq_true_eq]
        constructor
        · intro h
          exact Or.inr ⟨last, rfl, by omega⟩
        · rintro (h | ⟨x, hx, hle⟩)
          · exact Option.noConfusion h
          · obtain rfl : last = x := by injection hx
            omega
  · simp only [can_repost]
    rw [decide_eq_false_iff_not]
    omega
  · simp only [can_repost, decide_eq_true_eq]
    omega

/-- C3 counterexample: with relevance 80, discount fraction 2 and EV 0 the
ranking loop's composite score is 0.86 while the spec's clamped formula
yields 0.61 — the code applies no clamp to the discount term. -/
theorem final_score_counterexample :
    final_score 80 2 0 ≠ final_score_spec 80 2 0 := by
  unfold final_score final_score_spec
  norm_num

/-- C3 amended: the composite score is
`0.45 * (relevance/100) + 0.25 * discountFraction + 0.30 * evSignal` with
the discount fraction used as-is (no clamp); it agrees with the spec's
clamped formula exactly when the discount fraction already lies in
`[0,1]`. -/
theorem final_score_formula (iaScore disc ev : ℚ) (h0 : 0 ≤ disc) (h1 : disc ≤ 1) :
    final_score iaScore disc ev = final_score_spec iaScore disc ev ∧
    final_score iaScore disc ev = 0.45 * (iaScore / 100) + 0.25 * disc + 0.30 * ev := by
  constructor
  · unfold final_score final_score_spec
    rw [min_eq_right h1, max_eq_right h0]
  · rfl

/-- Witness for the amended C3 at relevance 80, discount 1/2, EV 0. -/
theorem final_score_formula_witness :
    final_score 80 (1/2) 0 = final_score_spec 80 (1/2) 0 ∧
    final_score 80 (1/2) 0 = 0.45 * ((80 : ℚ) / 100) + 0.25 * (1/2) + 0.30 * 0 :=
  final_score_formula 80 (1/2) 0 (by norm_num) (by norm_num)

theorem catCount_append (c : String) (l₁ l₂ : List RankedItem) :
    catCount c (l₁ ++ l₂) = catCount c l₁ + catCount c l₂ :=
  List.countP_append _ _ _

theorem selectPass1_cap (maxPosts cap : Nat) (canR : Nat → Bool)
    (ranked : List RankedItem) :
    ∀ (chosen : List RankedItem) (counts : String → Nat) (seen : List String),
      (∀ c, catCount c chosen = counts c) → (∀ c, counts c ≤ cap) →
      ∀ c, catCount c (selectPass1 maxPosts cap canR ranked chosen counts seen).1 ≤ cap := by
  induction ranked with
  | nil =>
      intro chosen counts seen hacc hcap c
      simpa [selectPass1, hacc c] using hcap c
  | cons t rest ih =>
      intro chosen counts seen hacc hcap c
      unfold selectPass1
      by_cases hfull : maxPosts ≤ chosen.length
      · simpa [hfull, hacc c] using hcap c
      · rw [if_neg hfull]
        by_cases h0 : t.prod.pid = 0
        · simpa [h0] using ih chosen counts seen hacc hcap c
        · rw [if_neg h0]
          by_cases hcr : canR t.prod.pid = false
          · simpa [hcr] using ih chosen counts seen hacc hcap c
          · rw [if_neg hcr]
            by_cases hseen : t.prod.nrm ∈ seen
            · simpa [hseen] using ih chosen counts seen hacc hcap c
            · rw [if_neg hseen]
              by_cases hcap' : cap ≤ counts t.prod.cat
              · simpa [hcap'] using ih chosen counts seen hacc hcap c
              · rw [if_neg hcap']
                refine ih _ _ _ ?_ ?_ c
                · intro c'
                  rw [catCount_append]
                  have hsingle : catCount c' [t] = if c' = t.prod.cat then 1 else 0 := by
                    unfold catCount
                    simp only [List.countP_cons, List.countP_nil, beq_iff_eq]
                    by_cases hc : c' = t.prod.cat
                    · rw [if_pos hc, if_pos hc.symm]
                    · rw [if_neg hc, if_neg (fun h => hc h.symm)]
                  rw [hsingle, hacc c']
                  by_cases hc : c' = t.prod.cat
                  · rw [if_pos hc, if_pos hc]
                  · rw [if_neg hc, if_neg hc, Nat.add_zero]
                · intro c'
                  by_cases hc : c' = t.prod.cat
                  · rw [if_pos hc, hc]
                    omega
                  · rw [if_neg hc]
                    exact hcap c'

/-- C1 amended: the strict first pass of `select_with_caps_and_dedupe`
never accepts more than `max(1, floor(targetCount * maxCategoryShare))`
offers of one category, and the returned shortlist is exactly that strict
pass whenever it already reached `targetCount`; in general the returned
shortlist may exceed the cap, because on a shortfall a second backfill
loop ignoring category caps appends further offers. -/
theorem selector_cap_strict_pass (maxPosts : Nat) (maxShare : ℚ) (canR : Nat → Bool)
    (ranked : List RankedItem) :
    (∀ c, catCount c (selectStrict maxPosts maxShare canR ranked) ≤ catCap maxPosts maxShare) ∧
    (¬ (selectStrict maxPosts maxShare canR ranked).length < maxPosts →
      select_with_caps_and_dedupe maxPosts maxShare canR ranked =
        selectStrict maxPosts maxShare canR ranked) := by
  constructor
  · exact selectPass1_cap maxPosts (catCap maxPosts maxShare) canR ranked [] (fun _ => 0) []
      (fun c => rfl) (fun c => Nat.zero_le _)
  · intro hfull
    unfold select_with_caps_and_dedupe selectStrict at *
    rw [if_neg hfull]

/-- C1 counterexample: with targetCount 3 and maxCategoryShare 2/5 the cap
is `max(1, floor(6/5)) = 1`, yet on three repostable offers of the same
category the shortlist returned by `select_with_caps_and_dedupe` contains
all three of them — the backfill loop ignores the category cap, so the
returned shortlist can exceed `floor(targetCount * maxCategoryShare)`. -/
theorem selector_cap_counterexample :
    catCap 3 (2/5) = 1 ∧
    catCount "a" (select_with_caps_and_dedupe 3 (2/5) (fun _ => true) rankedAAA) = 3 := by
  have hcap : catCap 3 (2/5) = 1 := by
    unfold catCap pyInt
    rw [if_neg (by norm_num)]
    norm_num
  refine ⟨hcap, ?_⟩
  unfold select_with_caps_and_dedupe
  rw [hcap]
  decide

/-- Witness for the amended C1 at a concrete input whose strict pass
already reaches the target. -/
theorem selector_cap_strict_pass_witness :
    catCount "a" (selectStrict 1 (2/5) (fun _ => true) rankedA1) ≤ catCap 1 (2/5) ∧
    select_with_caps_and_dedupe 1 (2/5) (fun _ => true) rankedA1 =
      selectStrict 1 (2/5) (fun _ => true) rankedA1 := by
  have h := selector_cap_strict_pass 1 (2/5) (fun _ => true) rankedA1
  have hcap1 : catCap 1 (2/5) = 1 := by
    unfold catCap pyInt
    rw [if_neg (by norm_num)]
    norm_num
  have hlen : ¬ (selectStrict 1 (2/5) (fun _ => true) rankedA1).length < 1 := by
    unfold selectStrict
    rw [hcap1]
    decide
  exact ⟨h.1 "a", h.2 hlen⟩

theorem pickNext_shrinks {seen : List Nat} {canR : Nat → Bool} :
    ∀ {pool : List Product} {p : Product} {rest : List Product},
      pickNext seen canR pool = some (p, rest) → rest.length < pool.length := by
  intro pool
  induction pool with
  | nil => intro p rest h; simp [pickNext] at h
  | cons q qs ih =>
      intro p rest h
      unfold pickNext at h
      split at h
      · cases h
        simp
      · exact Nat.lt_trans (ih h) (Nat.lt_succ_self _)

theorem pickNext_eligible {seen : List Nat} {canR : Nat → Bool} :
    ∀ {pool : List Product} {p : Product} {rest : List Product},
      pickNext seen canR pool = some (p, rest) →
      p.pid ≠ 0 ∧ p.pid ∉ seen ∧ canR p.pid = true ∧ p ∈ pool := by
  intro pool
  induction pool with
  | nil => intro p rest h; simp [pickNext] at h
  | cons q qs ih =>
      intro p rest h
      unfold pickNext at h
      split at h
      · rename_i hel
        cases h
        exact ⟨hel.1, hel.2.1, hel.2.2, List.mem_cons_self _ _⟩
      · have := ih h
        exact ⟨this.1, this.2.1, this.2.2.1, List.mem_cons_of_mem _ this.2.2.2⟩

theorem pickNext_rest_sublist {seen : List Nat} {canR : Nat → Bool} :
    ∀ {pool : List Product} {p : Product} {rest : List Product},
      pickNext seen canR pool = some (p, rest) → rest.Sublist pool := by
  intro pool
  induction pool with
  | nil => intro p rest h; simp [pickNext] at h
  | cons q qs ih =>
      intro p rest h
      unfold pickNext at h
      split at h
      · cases h
        exact (List.sublist_cons_self _ _)
      · exact (ih h).trans (List.sublist_cons_self _ _)

theorem passOne_nil (maxPosts : Nat) (canR : Nat → Bool) (pub : Product → Bool)
    (fuel : Nat) (s : RState) : passOne maxPosts canR pub fuel [] s = (s, []) := by
  cases fuel with
  | zero => rfl
  | succ n =>
      unfold passOne
      split
      · rfl
      · rfl

theorem passOne_fuel (maxPosts : Nat) (canR : Nat → Bool) (pub : Product → Bool) :
    ∀ (fuel n : Nat) (pool : List Product) (s : RState),
      pool.length ≤ fuel → pool.length ≤ n →
      passOne maxPosts canR pub fuel pool s = passOne maxPosts canR pub n pool s := by
  intro fuel
  induction fuel with
  | zero =>
      intro n pool s hf hn
      have : pool = [] := List.eq_nil_of_length_eq_zero (Nat.le_zero.mp hf)
      subst this
      rw [passOne_nil, passOne_nil]
  | succ m ih =>
      intro n pool s hf hn
      cases pool with
      | nil => rw [passOne_nil, passOne_nil]
      | cons q qs =>
          cases n with
          | zero => exact absurd hn (by simp)
          | succ k =>
              unfold passOne
              split
              · rfl
              · cases hpick : pickNext s.seen canR (q :: qs) with
                | none => rfl
                | some pr =>
                    obtain ⟨p, rest⟩ := pr
                    have hlt : rest.length < (q :: qs).length :=
                      pickNext_shrinks (by rw [hpick])
                    have hf' : rest.length ≤ m := by
                      simp only [List.length_cons] at hlt hf
                      omega
                    have hn' : rest.length ≤ k := by
                      simp only [List.length_cons] at hlt hn
                      omega
                    exact ih k rest (attempt pub p s) hf' hn'

theorem attempt_posted (pub : Product → Bool) (p : Product) (s : RState) :
    (attempt pub p s).posted = s.posted + (if pub p then 1 else 0) := rfl

theorem attempt_tried (pub : Product → Bool) (p : Product) (s : RState) :
    (attempt pub p s).tried = s.tried + 1 := rfl

theorem attempt_seen (pub : Product → Bool) (p : Product) (s : RState) :
    (attempt pub p s).seen = p.pid :: s.seen := rfl

theorem attempt_pubs (pub : Product → Bool) (p : Product) (s : RState) :
    (attempt pub p s).pubs = s.pubs ++ [p.pid] := rfl

theorem attempt_inv {maxPosts : Nat} {canR : Nat → Bool} {pub : Product → Bool}
    {p : Product} {s : RState} (h : RInv maxPosts canR s) (hlt : s.posted < maxPosts)
    (hseen : p.pid ∉ s.seen) (hcr : canR p.pid = true) :
    RInv maxPosts canR (attempt pub p s) := by
  obtain ⟨h1, h2, h3, h4, h5⟩ := h
  have hnp : p.pid ∉ s.pubs := fun hm => hseen (h4 _ hm)
  refine ⟨?_, ?_, ?_, ?_, ?_⟩
  · rw [attempt_posted]
    split <;> omega
  · rw [attempt_posted, attempt_tried]
    split <;> omega
  · rw [attempt_pubs]
    simpa [List.nodup_append] using ⟨h3, fun hm => hnp hm⟩
  · intro x hx
    rw [attempt_pubs] at hx
    rw [attempt_seen]
    rcases List.mem_append.mp hx with hx | hx
    · exact List.mem_cons_of_mem _ (h4 x hx)
    · simp only [List.mem_singleton] at hx
      subst hx
      exact List.mem_cons_self _ _
  · intro x hx
    rw [attempt_pubs] at hx
    rcases List.mem_append.mp hx with hx | hx
    · exact h5 x hx
    · simp only [List.mem_singleton] at hx
      subst hx
      exact hcr

theorem passOne_inv (maxPosts : Nat) (canR : Nat → Bool) (pub : Product → Bool) :
    ∀ (fuel : Nat) (pool : List Product) (s : RState), RInv maxPosts canR s →
      RInv maxPosts canR (passOne maxPosts canR pub fuel pool s).1 := by
  intro fuel
  induction fuel with
  | zero => intro pool s h; exact h
  | succ m ih =>
      intro pool s h
      unfold passOne
      split
      · exact h
      · rename_i hfull
        cases hpick : pickNext s.seen canR pool with
        | none => exact h
        | some pr =>
            obtain ⟨p, rest⟩ := pr
            have hel := pickNext_eligible hpick
            exact ih rest _ (attempt_inv h (Nat.lt_of_not_le hfull) hel.2.1 hel.2.2.1)

theorem passTwo_inv (maxPosts : Nat) (canR : Nat → Bool) (pub : Product → Bool) :
    ∀ (pool : List Product) (s : RState), RInv maxPosts canR s →
      RInv maxPosts canR (passTwo maxPosts canR pub pool s) := by
  intro pool
  induction pool with
  | nil => intro s h; exact h
  | cons p rest ih =>
      intro s h
      unfold passTwo
      split
      · exact h
      · rename_i hfull
        split
        · rename_i hel
          exact ih _ (attempt_inv h (Nat.lt_of_not_le hfull) hel.2.1 hel.2.2)
        · exact ih _ h

theorem publish_with_rescue_inv (ranked : List Product) (maxPosts : Nat)
    (canR : Nat → Bool) (pub : Product → Bool) (extra? : Option (List Product)) :
    RInv maxPosts canR (publish_with_rescue ranked maxPosts canR pub extra?) := by
  have h0 : RInv maxPosts canR RState.start := by
    refine ⟨Nat.zero_le _, Nat.le_refl _, List.nodup_nil, ?_, ?_⟩ <;> intro x hx <;>
      exact absurd hx (List.not_mem_nil x)
  have h1 := passOne_inv maxPosts canR pub ranked.length ranked RState.start h0
  have h2 := passTwo_inv maxPosts canR pub
    (passOne maxPosts canR pub ranked.length ranked RState.start).2 _ h1
  unfold publish_with_rescue
  cases extra? with
  | none => exact h2
  | some extra =>
      dsimp only
      split
      · exact passTwo_inv maxPosts canR pub extra _ h2
      · exact h2

/-- C7: for every input pool, target count, and every outcome behaviour of
the external publish function and cooldown predicate (and any relaxed
re-collection), `publish_with_rescue` returns `posted ≤ max_posts` and
`tried ≥ posted`. -/
theorem publish_with_rescue_counts (ranked : List Product) (maxPosts : Nat)
    (canR : Nat → Bool) (pub : Product → Bool) (extra? : Option (List Product)) :
    (publish_with_rescue ranked maxPosts canR pub extra?).posted ≤ maxPosts ∧
    (publish_with_rescue ranked maxPosts canR pub extra?).posted ≤
      (publish_with_rescue ranked maxPosts canR pub extra?).tried :=
  ⟨(publish_with_rescue_inv ranked maxPosts canR pub extra?).1,
    (publish_with_rescue_inv ranked maxPosts canR pub extra?).2.1⟩

/-- C10: within a single `publish_with_rescue` run the external publish
function is invoked at most once per distinct offer identifier across all
three passes — the trace of its invocations has no duplicate id, whatever
the ranking, the re-collection (which may repeat offers), the cooldown
predicate and the publish outcomes. -/
theorem publish_once_per_id (ranked : List Product) (maxPosts : Nat)
    (canR : Nat → Bool) (pub : Product → Bool) (extra? : Option (List Product)) :
    (publish_with_rescue ranked maxPosts canR pub extra?).pubs.Nodup :=
  (publish_with_rescue_inv ranked maxPosts canR pub extra?).2.2.1

theorem updateBucket_keys (key : Sig) (score : ℚ) (p : Product) :
    ∀ b : List (Sig × ℚ × Product),
      (updateBucket key score p b).map (fun e => e.1) =
        if key ∈ b.map (fun e => e.1) then b.map (fun e => e.1)
        else b.map (fun e => e.1) ++ [key] := by
  intro b
  induction b with
  | nil => simp [updateBucket]
  | cons e rest ih =>
      unfold updateBucket
      by_cases hk : e.1 = key
      · rw [if_pos hk]
        have hmem : key ∈ (e :: rest).map (fun x => x.1) := by
          rw [List.map_cons, hk]
          exact List.mem_cons_self _ _
        rw [if_pos hmem]
        by_cases hs : e.2.1 < score
        · rw [if_pos hs]
          simp [hk]
        · rw [if_neg hs]
      · rw [if_neg hk]
        simp only [List.map_cons, ih]
        by_cases hmem : key ∈ rest.map (fun e => e.1)
        · rw [if_pos hmem, if_pos (List.mem_cons_of_mem _ hmem)]
        · have hnot : key ∉ e.1 :: rest.map (fun e => e.1) := by
            intro hc
            rcases List.mem_cons.mp hc with hc | hc
            · exact hk hc.symm
            · exact hmem hc
          rw [if_neg hmem, if_neg hnot]
          simp

theorem updateBucket_keys_nodup {key : Sig} {score : ℚ} {p : Product}
    {b : List (Sig × ℚ × Product)} (h : (b.map (fun e => e.1)).Nodup) :
    ((updateBucket key score p b).map (fun e => e.1)).Nodup := by
  rw [updateBucket_keys]
  split
  · exact h
  · rename_i hmem
    rw [List.nodup_append]
    refine ⟨h, List.nodup_singleton _, ?_⟩
    intro x hx hx'
    simp only [List.mem_singleton] at hx'
    subst hx'
    exact hmem hx

theorem updateBucket_entryOk {hscore : Product → ℚ} {done : List Product} {p : Product} :
    ∀ {b : List (Sig × ℚ × Product)},
      (b.map (fun e => e.1)).Nodup →
      (∀ e ∈ b, EntryOk hscore done e) →
      (∀ r ∈ done, r.sig = p.sig → p.sig ∈ b.map (fun e => e.1)) →
      ∀ e ∈ updateBucket p.sig (hscore p) p b, EntryOk hscore (done ++ [p]) e := by
  intro b
  induction b with
  | nil =>
      intro _ hok hcomp e he
      simp only [updateBucket, List.mem_singleton] at he
      subst he
      refine ⟨rfl, rfl, by simp, ?_⟩
      intro q hq hqs
      rcases List.mem_append.mp hq with hq | hq
      · exact absurd (hcomp q hq hqs) (by simp)
      · simp only [List.mem_singleton] at hq
        subst hq
        exact le_refl _
  | cons f rest ih =>
      intro hnd hok hcomp e he
      have hndr : (rest.map (fun e => e.1)).Nodup := (List.nodup_cons.mp hnd).2
      have hfnot : f.1 ∉ rest.map (fun e => e.1) := (List.nodup_cons.mp hnd).1
      unfold updateBucket at he
      by_cases hk : f.1 = p.sig
      · rw [if_pos hk] at he
        rcases List.mem_cons.mp he with he | hin
        · split at he
          · rename_i hlt
            subst he
            refine ⟨rfl, rfl, by simp, ?_⟩
            intro q hq hqs
            rcases List.mem_append.mp hq with hq | hq
            · have hf := hok f (List.mem_cons_self _ _)
              have hle := hf.2.2.2 q hq (by rw [hqs]; exact hk.symm)
              exact le_of_lt (lt_of_le_of_lt hle hlt)
            · simp only [List.mem_singleton] at hq
              subst hq
              exact le_refl _
          · rename_i hnlt
            obtain ⟨hf1, hf2, hf3, hf4⟩ := hok f (List.mem_cons_self _ _)
            subst he
            refine ⟨hf1, hf2, List.mem_append_left _ hf3, ?_⟩
            intro q hq hqs
            rcases List.mem_append.mp hq with hq | hq
            · exact hf4 q hq hqs
            · simp only [List.mem_singleton] at hq
              subst hq
              exact le_of_not_lt hnlt
        · obtain ⟨he1, he2, he3, he4⟩ := hok e (List.mem_cons_of_mem _ hin)
          refine ⟨he1, he2, List.mem_append_left _ he3, ?_⟩
          intro q hq hqs
          rcases List.mem_append.mp hq with hq | hq
          · exact he4 q hq hqs
          · simp only [List.mem_singleton] at hq
            subst hq
            have : e.1 ∈ rest.map (fun e => e.1) := List.mem_map_of_mem _ hin
            rw [← hqs, ← hk] at this
            exact absurd this hfnot
      · rw [if_neg hk] at he
        rcases List.mem_cons.mp he with he | hin
        · subst he
          obtain ⟨he1, he2, he3, he4⟩ := hok e (List.mem_cons_self _ _)
          refine ⟨he1, he2, List.mem_append_left _ he3, ?_⟩
          intro q hq hqs
          rcases List.mem_append.mp hq with hq | hq
          · exact he4 q hq hqs
          · simp only [List.mem_singleton] at hq
            subst hq
            exact absurd hqs.symm hk
        · refine ih hndr (fun x hx => hok x (List.mem_cons_of_mem _ hx)) ?_ e hin
          intro r hr hrs
          rcases List.mem_cons.mp (hcomp r hr hrs) with hc | hc
          · exact absurd hc.symm hk
          · exact hc

theorem updateBucket_complete {done : List Product} {p : Product} {score : ℚ}
    {b : List (Sig × ℚ × Product)}
    (hcomp : ∀ q ∈ done, q.sig ∈ b.map (fun e => e.1)) :
    ∀ q ∈ done ++ [p], q.sig ∈ (updateBucket p.sig score p b).map (fun e => e.1) := by
  intro q hq
  rw [updateBucket_keys]
  rcases List.mem_append.mp hq with hq | hq
  · split
    · exact hcomp q hq
    · exact List.mem_append_left _ (hcomp q hq)
  · simp only [List.mem_singleton] at hq
    subst hq
    split
    · rename_i hmem
      exact hmem
    · exact List.mem_append_right _ (by simp)

theorem bucketInv_step {hscore : Product → ℚ} {done : List Product}
    {b : List (Sig × ℚ × Product)} {p : Product} (h : BucketInv hscore done b) :
    BucketInv hscore (done ++ [p]) (updateBucket p.sig (hscore p) p b) :=
  ⟨updateBucket_keys_nodup h.1,
    updateBucket_entryOk h.1 h.2.1 (fun r hr hrs => hrs ▸ h.2.2 r hr),
    updateBucket_complete h.2.2⟩

theorem bucketInv_fold (hscore : Product → ℚ) :
    ∀ (cands done : List Product) (b : List (Sig × ℚ × Product)),
      BucketInv hscore done b →
      BucketInv hscore (done ++ cands)
        (cands.foldl (fun b p => updateBucket p.sig (hscore p) p b) b) := by
  intro cands
  induction cands with
  | nil => intro done b h; simpa using h
  | cons p rest ih =>
      intro done b h
      have h2 := ih (done ++ [p]) _ (bucketInv_step h)
      rw [List.append_assoc, List.singleton_append] at h2
      exact h2

theorem bucketsOf_inv (hscore : Product → ℚ) (cands : List Product) :
    BucketInv hscore cands (bucketsOf hscore cands) := by
  have h := bucketInv_fold hscore cands [] []
    ⟨List.nodup_nil, by simp, by simp⟩
  simpa [bucketsOf] using h

theorem updateById_keys (p : Product) :
    ∀ b : List (Nat × Product),
      (updateById p b).map (fun e => e.1) =
        if p.pid ∈ b.map (fun e => e.1) then b.map (fun e => e.1)
        else b.map (fun e => e.1) ++ [p.pid] := by
  intro b
  induction b with
  | nil => simp [updateById]
  | cons e rest ih =>
      unfold updateById
      by_cases hk : e.1 = p.pid
      · rw [if_pos hk]
        have hmem : p.pid ∈ (e :: rest).map (fun x => x.1) := by
          rw [List.map_cons, hk]
          exact List.mem_cons_self _ _
        rw [if_pos hmem]
        simp
      · rw [if_neg hk]
        simp only [List.map_cons, ih]
        by_cases hmem : p.pid ∈ rest.map (fun e => e.1)
        · rw [if_pos hmem, if_pos (List.mem_cons_of_mem _ hmem)]
        · have hnot : p.pid ∉ e.1 :: rest.map (fun e => e.1) := by
            intro hc
            rcases List.mem_cons.mp hc with hc | hc
            · exact hk hc.symm
            · exact hmem hc
          rw [if_neg hmem, if_neg hnot]
          simp

theorem updateById_mem {p : Product} :
    ∀ {b : List (Nat × Product)} {e : Nat × Product},
      e ∈ updateById p b → e ∈ b ∨ e = (p.pid, p) := by
  intro b
  induction b with
  | nil =>
      intro e he
      simp only [updateById, List.mem_singleton] at he
      exact Or.inr he
  | cons f rest ih =>
      intro e he
      unfold updateById at he
      by_cases hk : f.1 = p.pid
      · rw [if_pos hk] at he
        rcases List.mem_cons.mp he with he | hin
        · exact Or.inr (by rw [he, hk])
        · exact Or.inl (List.mem_cons_of_mem _ hin)
      · rw [if_neg hk] at he
        rcases List.mem_cons.mp he with he | hin
        · exact Or.inl (he ▸ List.mem_cons_self _ _)
        · rcases ih hin with h | h
          · exact Or.inl (List.mem_cons_of_mem _ h)
          · exact Or.inr h

theorem updateById_find_self (p : Product) :
    ∀ b : List (Nat × Product),
      (updateById p b).find? (fun e => e.1 == p.pid) = some (p.pid, p) := by
  intro b
  induction b with
  | nil =>
      show List.find? (fun e => e.1 == p.pid) [(p.pid, p)] = some (p.pid, p)
      rw [List.find?_cons_of_pos _ (by simp)]
  | cons e rest ih =>
      unfold updateById
      by_cases hk : e.1 = p.pid
      · rw [if_pos hk, List.find?_cons_of_pos _ (by simp [hk]), hk]
      · rw [if_neg hk, List.find?_cons_of_neg _ (by simp [hk])]
        exact ih

theorem updateById_find_other (p : Product) (k : Nat) (hk : ¬ k = p.pid) :
    ∀ b : List (Nat × Product),
      (updateById p b).find? (fun e => e.1 == k) = b.find? (fun e => e.1 == k) := by
  intro b
  induction b with
  | nil =>
      show List.find? (fun e => e.1 == k) [(p.pid, p)] =
        List.find? (fun e => e.1 == k) []
      rw [List.find?_cons_of_neg _ (by simp; exact fun hc => hk hc.symm)]
  | cons e rest ih =>
      unfold updateById
      by_cases he : e.1 = p.pid
      · rw [if_pos he]
        have hne : ¬ e.1 = k := by rw [he]; exact fun hc => hk hc.symm
        rw [List.find?_cons_of_neg _ (by simp [hne]),
          List.find?_cons_of_neg _ (by simp [hne])]
      · rw [if_neg he]
        by_cases hek : e.1 = k
        · rw [List.find?_cons_of_pos _ (by simp [hek]),
            List.find?_cons_of_pos _ (by simp [hek])]
        · rw [List.find?_cons_of_neg _ (by simp [hek]),
            List.find?_cons_of_neg _ (by simp [hek])]
          exact ih

theorem idInv_step {done : List Product} {b : List (Nat × Product)} {p : Product}
    (h : IdInv done b) : IdInv (done ++ [p]) (updateById p b) := by
  obtain ⟨h1, h2, h3⟩ := h
  refine ⟨?_, ?_, ?_⟩
  · rw [updateById_keys]
    split
    · exact h1
    · rename_i hmem
      rw [List.nodup_append]
      refine ⟨h1, List.nodup_singleton _, ?_⟩
      intro x hx hx'
      simp only [List.mem_singleton] at hx'
      subst hx'
      exact hmem hx
  · intro e he
    rcases updateById_mem he with hin | hin
    · exact ⟨(h2 e hin).1, List.mem_append_left _ (h2 e hin).2⟩
    · subst hin
      exact ⟨rfl, List.mem_append_right _ (by simp)⟩
  · intro k
    by_cases hk : k = p.pid
    · subst hk
      rw [updateById_find_self, List.filter_append]
      have hfp : List.filter (fun q => q.pid == p.pid) [p] = [p] := by simp
      rw [hfp, List.getLast?_concat]
      rfl
    · rw [updateById_find_other p k hk, h3 k, List.filter_append]
      have hfp : List.filter (fun q => q.pid == k) [p] = [] := by
        simp only [List.filter, List.filter_nil]
        have : (p.pid == k) = false := by
          simp only [beq_eq_false_iff_ne, ne_eq]
          exact fun hc => hk hc.symm
        rw [this]
      rw [hfp, List.append_nil]

theorem idInv_fold :
    ∀ (l done : List Product) (b : List (Nat × Product)), IdInv done b →
      IdInv (done ++ l) (l.foldl (fun b p => updateById p b) b) := by
  intro l
  induction l with
  | nil => intro done b h; simpa using h
  | cons p rest ih =>
      intro done b h
      have h2 := ih (done ++ [p]) _ (idInv_step h)
      rw [List.append_assoc, List.singleton_append] at h2
      exact h2

theorem dedupe_by_id_inv (l : List Product) :
    IdInv l (l.foldl (fun b p => updateById p b) []) := by
  have h := idInv_fold l [] []
    ⟨List.nodup_nil, by simp, by intro k; simp⟩
  simpa using h

theorem find?_congr_on {α : Type} {p q : α → Bool} :
    ∀ {l : List α}, (∀ x ∈ l, p x = q x) → l.find? p = l.find? q := by
  intro l
  induction l with
  | nil => intro _; rfl
  | cons a t ih =>
      intro h
      by_cases ha : p a = true
      · rw [List.find?_cons_of_pos _ ha,
          List.find?_cons_of_pos _ (by rw [← h a (List.mem_cons_self _ _)]; exact ha)]
      · rw [List.find?_cons_of_neg _ ha,
          List.find?_cons_of_neg _ (by rw [← h a (List.mem_cons_self _ _)]; exact ha)]
        exact ih (fun x hx => h x (List.mem_cons_of_mem _ hx))

theorem dedupe_by_id_find (l : List Product) (i : Nat) :
    (dedupe_by_id l).find? (fun p => p.pid == i) =
      (l.filter (fun p => p.pid == i)).getLast? := by
  obtain ⟨h1, h2, h3⟩ := dedupe_by_id_inv l
  unfold dedupe_by_id
  rw [List.find?_map]
  have hc : (l.foldl (fun b p => updateById p b) []).find?
      ((fun p => p.pid == i) ∘ (fun e => e.2)) =
      (l.foldl (fun b p => updateById p b) []).find? (fun e => e.1 == i) :=
    find?_congr_on (fun e he => by simp only [Function.comp]; rw [(h2 e he).1])
  rw [hc, h3 i]
  cases (l.filter (fun p => p.pid == i)).getLast? <;> rfl

theorem dedupe_by_id_mem (l : List Product) : ∀ p ∈ dedupe_by_id l, p ∈ l := by
  intro p hp
  obtain ⟨h1, h2, h3⟩ := dedupe_by_id_inv l
  unfold dedupe_by_id at hp
  rcases List.mem_map.mp hp with ⟨e, he, hep⟩
  exact hep ▸ (h2 e he).2

theorem dedupe_by_id_nodup (l : List Product) :
    ((dedupe_by_id l).map Product.pid).Nodup := by
  obtain ⟨h1, h2, h3⟩ := dedupe_by_id_inv l
  unfold dedupe_by_id
  rw [List.map_map]
  have hmc : List.map (Product.pid ∘ fun e => e.2)
      (l.foldl (fun b p => updateById p b) []) =
      List.map (fun e => e.1) (l.foldl (fun b p => updateById p b) []) :=
    List.map_congr_left (fun e he => by simp only [Function.comp]; exact (h2 e he).1)
  rw [hmc]
  exact h1

theorem dedupe_by_signature_mem (hscore : Product → ℚ) (cands : List Product) :
    ∀ p ∈ dedupe_by_signature hscore cands,
      p ∈ cands ∧ ∀ q ∈ cands, q.sig = p.sig → hscore q ≤ hscore p := by
  intro p hp
  obtain ⟨h1, h2, h3⟩ := bucketsOf_inv hscore cands
  unfold dedupe_by_signature at hp
  rcases List.mem_map.mp hp with ⟨e, he, hep⟩
  obtain ⟨he1, he2, he3, he4⟩ := h2 e he
  subst hep
  refine ⟨he3, fun q hq hqs => ?_⟩
  have := he4 q hq (by rw [hqs, ← he1])
  rwa [he2] at this

theorem dedupe_by_signature_sig_nodup (hscore : Product → ℚ) (cands : List Product) :
    ((dedupe_by_signature hscore cands).map Product.sig).Nodup := by
  obtain ⟨h1, h2, h3⟩ := bucketsOf_inv hscore cands
  unfold dedupe_by_signature
  rw [List.map_map]
  have hmc : List.map (Product.sig ∘ fun e => e.2.2) (bucketsOf hscore cands) =
      List.map (fun e => e.1) (bucketsOf hscore cands) :=
    List.map_congr_left (fun e he => by
      simp only [Function.comp]
      exact ((h2 e he).1).symm)
  rw [hmc]
  exact h1

theorem dedupe_by_signature_complete (hscore : Product → ℚ) (cands : List Product) :
    ∀ q ∈ cands, ∃ p ∈ dedupe_by_signature hscore cands, p.sig = q.sig := by
  intro q hq
  obtain ⟨h1, h2, h3⟩ := bucketsOf_inv hscore cands
  rcases List.mem_map.mp (h3 q hq) with ⟨e, he, hek⟩
  refine ⟨e.2.2, List.mem_map_of_mem _ he, ?_⟩
  rw [← (h2 e he).1, hek]

theorem dedupe_by_signature_pid_nodup {hscore : Product → ℚ} {cands : List Product}
    (h : (cands.map Product.pid).Nodup) :
    ((dedupe_by_signature hscore cands).map Product.pid).Nodup := by
  have hsig := dedupe_by_signature_sig_nodup hscore cands
  have hout : (dedupe_by_signature hscore cands).Nodup := List.Nodup.of_map _ hsig
  refine List.Nodup.map_on ?_ hout
  intro x hx y hy hxy
  exact List.inj_on_of_nodup_map h
    ((dedupe_by_signature_mem hscore cands x hx).1)
    ((dedupe_by_signature_mem hscore cands y hy).1) hxy

/-- C9: the composed dedup — exact-identifier dedup (last-seen record
wins) followed by feature-signature dedup — yields unique identifiers and
unique feature signatures; per signature exactly one offer survives, of
maximal pre-score among the id-deduped candidates sharing its signature;
and for exact-identifier duplicates the id-dedup keeps precisely the
last-seen record of each id. -/
theorem dedupe_pipeline_spec (l : List Product) (hscore : Product → ℚ) :
    ((dedupe_by_signature hscore (dedupe_by_id l)).map Product.pid).Nodup ∧
    ((dedupe_by_signature hscore (dedupe_by_id l)).map Product.sig).Nodup ∧
    (∀ p ∈ dedupe_by_signature hscore (dedupe_by_id l),
      p ∈ dedupe_by_id l ∧
        ∀ q ∈ dedupe_by_id l, q.sig = p.sig → hscore q ≤ hscore p) ∧
    (∀ q ∈ dedupe_by_id l,
      ∃ p ∈ dedupe_by_signature hscore (dedupe_by_id l), p.sig = q.sig) ∧
    (∀ i, (dedupe_by_id l).find? (fun p => p.pid == i) =
      (l.filter (fun p => p.pid == i)).getLast?) :=
  ⟨dedupe_by_signature_pid_nodup (dedupe_by_id_nodup l),
    dedupe_by_signature_sig_nodup hscore (dedupe_by_id l),
    dedupe_by_signature_mem hscore (dedupe_by_id l),
    dedupe_by_signature_complete hscore (dedupe_by_id l),
    dedupe_by_id_find l⟩

/-- Witness for C9 at a concrete two-offer list. -/
theorem dedupe_pipeline_spec_witness :
    ((dedupe_by_signature (fun _ => 0) (dedupe_by_id [offerA1, offerA2])).map
      Product.pid).Nodup :=
  (dedupe_pipeline_spec [offerA1, offerA2] (fun _ => 0)).1

theorem insertByScore_mem {hscore : Product → ℚ} {p x : Product} :
    ∀ {l : List Product}, x ∈ insertByScore hscore p l → x = p ∨ x ∈ l := by
  intro l
  induction l with
  | nil =>
      intro h
      simp only [insertByScore, List.mem_singleton] at h
      exact Or.inl h
  | cons q rest ih =>
      intro h
      unfold insertByScore at h
      split at h
      · rcases List.mem_cons.mp h with h | h
        · exact Or.inr (h ▸ List.mem_cons_self _ _)
        · rcases ih h with h | h
          · exact Or.inl h
          · exact Or.inr (List.mem_cons_of_mem _ h)
      · rcases List.mem_cons.mp h with h | h
        · exact Or.inl h
        · exact Or.inr h

theorem insertByScore_sorted {hscore : Product → ℚ} {p : Product} :
    ∀ {l : List Product}, l.Pairwise (fun a b => hscore b ≤ hscore a) →
      (insertByScore hscore p l).Pairwise (fun a b => hscore b ≤ hscore a) := by
  intro l
  induction l with
  | nil =>
      intro _
      simp [insertByScore]
  | cons q rest ih =>
      intro h
      rw [List.pairwise_cons] at h
      obtain ⟨hq, hrest⟩ := h
      unfold insertByScore
      by_cases hle : hscore p ≤ hscore q
      · rw [if_pos hle, List.pairwise_cons]
        refine ⟨?_, ih hrest⟩
        intro x hx
        rcases insertByScore_mem hx with hx | hx
        · exact hx ▸ hle
        · exact hq x hx
      · rw [if_neg hle, List.pairwise_cons]
        constructor
        · intro x hx
          rcases List.mem_cons.mp hx with hx | hx
          · exact hx ▸ le_of_lt (lt_of_not_le hle)
          · exact le_trans (hq x hx) (le_of_lt (lt_of_not_le hle))
        · exact List.pairwise_cons.mpr ⟨hq, hrest⟩

theorem sortByScoreDesc_sorted (hscore : Product → ℚ) (l : List Product) :
    (sortByScoreDesc hscore l).Pairwise (fun a b => hscore b ≤ hscore a) := by
  unfold sortByScoreDesc
  suffices h : ∀ (l acc : List Product),
      acc.Pairwise (fun a b => hscore b ≤ hscore a) →
      (l.foldl (fun acc p => insertByScore hscore p acc) acc).Pairwise
        (fun a b => hscore b ≤ hscore a) from h l [] (by simp)
  intro l
  induction l with
  | nil => intro acc h; exact h
  | cons p rest ih => intro acc h; exact ih _ (insertByScore_sorted h)

theorem collect_relaxed_sorted (minRating minDiscount : ℚ) (minSalesDefault : Nat)
    (hscore : Product → ℚ) (gross : List Product) :
    (collect_relaxed minRating minDiscount minSalesDefault hscore gross).Pairwise
      (fun a b => hscore b ≤ hscore a) :=
  sortByScoreDesc_sorted hscore _

/-! ## Trace membership: every publish invocation comes from the ranking
or from the rescue re-collection. -/

theorem passTwo_pubs (maxPosts : Nat) (canR : Nat → Bool) (pub : Product → Bool) :
    ∀ (pool : List Product) (s : RState) (x : Nat),
      x ∈ (passTwo maxPosts canR pub pool s).pubs →
      x ∈ s.pubs ∨ x ∈ pool.map Product.pid := by
  intro pool
  induction pool with
  | nil => intro s x h; exact Or.inl h
  | cons p rest ih =>
      intro s x h
      unfold passTwo at h
      split at h
      · exact Or.inl h
      · split at h
        · rcases ih _ x h with h | h
          · rw [attempt_pubs] at h
            rcases List.mem_append.mp h with h | h
            · exact Or.inl h
            · simp only [List.mem_singleton] at h
              subst h
              exact Or.inr (List.mem_map_of_mem _ (List.mem_cons_self _ _))
          · rw [List.map_cons]
            exact Or.inr (List.mem_cons_of_mem _ h)
        · rcases ih _ x h with h | h
          · exact Or.inl h
          · rw [List.map_cons]
            exact Or.inr (List.mem_cons_of_mem _ h)

theorem passOne_pubs (maxPosts : Nat) (canR : Nat → Bool) (pub : Product → Bool) :
    ∀ (fuel : Nat) (pool : List Product) (s : RState) (x : Nat),
      x ∈ (passOne maxPosts canR pub fuel pool s).1.pubs →
      x ∈ s.pubs ∨ x ∈ pool.map Product.pid := by
  intro fuel
  induction fuel with
  | zero => intro pool s x h; exact Or.inl h
  | succ m ih =>
      intro pool s x h
      unfold passOne at h
      split at h
      · exact Or.inl h
      · cases hpick : pickNext s.seen canR pool with
        | none =>
            rw [hpick] at h
            exact Or.inl h
        | some pr =>
            obtain ⟨p, rest⟩ := pr
            rw [hpick] at h
            have hel := pickNext_eligible hpick
            have hsub := pickNext_rest_sublist hpick
            rcases ih rest _ x h with h | h
            · rw [attempt_pubs] at h
              rcases List.mem_append.mp h with h | h
              · exact Or.inl h
              · simp only [List.mem_singleton] at h
                subst h
                exact Or.inr (List.mem_map_of_mem _ hel.2.2.2)
            · exact Or.inr ((hsub.map Product.pid).subset h)

theorem passOne_rest_sub (maxPosts : Nat) (canR : Nat → Bool) (pub : Product → Bool) :
    ∀ (fuel : Nat) (pool : List Product) (s : RState),
      (passOne maxPosts canR pub fuel pool s).2.Sublist pool := by
  intro fuel
  induction fuel with
  | zero => intro pool s; exact List.Sublist.refl _
  | succ m ih =>
      intro pool s
      unfold passOne
      split
      · exact List.Sublist.refl _
      · cases hpick : pickNext s.seen canR pool with
        | none => exact List.Sublist.refl _
        | some pr =>
            obtain ⟨p, rest⟩ := pr
            exact (ih rest _).trans (pickNext_rest_sublist hpick)

theorem publish_with_rescue_pubs (ranked : List Product) (maxPosts : Nat)
    (canR : Nat → Bool) (pub : Product → Bool) :
    ∀ (extra? : Option (List Product)) (x : Nat),
      x ∈ (publish_with_rescue ranked maxPosts canR pub extra?).pubs →
      x ∈ ranked.map Product.pid ∨
        ∃ extra, extra? = some extra ∧ x ∈ extra.map Product.pid := by
  have hbase : ∀ (x : Nat),
      x ∈ (passTwo maxPosts canR pub
          (passOne maxPosts canR pub ranked.length ranked RState.start).2
          (passOne maxPosts canR pub ranked.length ranked RState.start).1).pubs →
      x ∈ ranked.map Product.pid := by
    intro x h
    rcases passTwo_pubs maxPosts canR pub _ _ x h with h | h
    · rcases passOne_pubs maxPosts canR pub ranked.length ranked RState.start x h with h | h
      · exact absurd h (List.not_mem_nil x)
      · exact h
    · exact ((passOne_rest_sub maxPosts canR pub ranked.length ranked
        RState.start).map Product.pid).subset h
  intro extra? x h
  unfold publish_with_rescue at h
  cases extra? with
  | none => exact Or.inl (hbase x h)
  | some extra =>
      dsimp only at h
      split at h
      · rcases passTwo_pubs maxPosts canR pub extra _ x h with h | h
        · exact Or.inl (hbase x h)
        · exact Or.inr ⟨extra, rfl, h⟩
      · exact Or.inl (hbase x h)

theorem buildRanked_cons_none {iaById : Nat → Option ℚ} {minIa : ℚ} {ev : Nat → ℚ}
    {p : Product} {rest : List Product} (h : iaById p.pid = none) :
    buildRanked iaById minIa ev (p :: rest) = buildRanked iaById minIa ev rest := by
  conv_lhs => rw [buildRanked]
  rw [h]

theorem buildRanked_cons_low {iaById : Nat → Option ℚ} {minIa : ℚ} {ev : Nat → ℚ}
    {p : Product} {rest : List Product} {s : ℚ} (h : iaById p.pid = some s)
    (hlt : s < minIa) :
    buildRanked iaById minIa ev (p :: rest) = buildRanked iaById minIa ev rest := by
  conv_lhs => rw [buildRanked]
  rw [h]
  exact if_pos hlt

theorem buildRanked_cons_ok {iaById : Nat → Option ℚ} {minIa : ℚ} {ev : Nat → ℚ}
    {p : Product} {rest : List Product} {s : ℚ} (h : iaById p.pid = some s)
    (hge : ¬ s < minIa) :
    buildRanked iaById minIa ev (p :: rest) =
      ⟨final_score s p.disc (ev p.pid), s, p⟩ :: buildRanked iaById minIa ev rest := by
  conv_lhs => rw [buildRanked]
  rw [h]
  exact if_neg hge

theorem buildRanked_mem (iaById : Nat → Option ℚ) (minIa : ℚ) (ev : Nat → ℚ) :
    ∀ (cands : List Product) (t : RankedItem), t ∈ buildRanked iaById minIa ev cands →
      minIa ≤ t.iaScore ∧ iaById t.prod.pid = some t.iaScore ∧
        t.final = final_score t.iaScore t.prod.disc (ev t.prod.pid) := by
  intro cands
  induction cands with
  | nil =>
      intro t ht
      simp [buildRanked] at ht
  | cons p rest ih =>
      intro t ht
      cases hia : iaById p.pid with
      | none =>
          rw [buildRanked_cons_none hia] at ht
          exact ih t ht
      | some s =>
          by_cases hlt : s < minIa
          · rw [buildRanked_cons_low hia hlt] at ht
            exact ih t ht
          · rw [buildRanked_cons_ok hia hlt] at ht
            rcases List.mem_cons.mp ht with ht | ht
            · subst ht
              exact ⟨le_of_not_lt hlt, hia, rfl⟩
            · exact ih t ht

/-- C6 amended: an offer whose relevance score is below the configured
threshold (or absent) is excluded from the ranked pool before composite
scoring, and a run without the rescue collaborator can invoke the publish
function only on ids of the pool built from that ranked list; the rescue
pass, however, re-collects from the raw feed without any relevance gate
and can publish a below-threshold offer (see the counterexample). -/
theorem relevance_gate (iaById : Nat → Option ℚ) (minIa : ℚ) (ev : Nat → ℚ)
    (cands ranked : List Product) (maxPosts : Nat) (canR : Nat → Bool)
    (pub : Product → Bool) :
    (∀ t ∈ buildRanked iaById minIa ev cands,
      minIa ≤ t.iaScore ∧ iaById t.prod.pid = some t.iaScore) ∧
    (∀ x ∈ (publish_with_rescue ranked maxPosts canR pub none).pubs,
      x ∈ ranked.map Product.pid) := by
  constructor
  · intro t ht
    exact ⟨(buildRanked_mem iaById minIa ev cands t ht).1,
      (buildRanked_mem iaById minIa ev cands t ht).2.1⟩
  · intro x hx
    rcases publish_with_rescue_pubs ranked maxPosts canR pub none x hx with h | ⟨e, he, _⟩
    · exact h
    · exact Option.noConfusion he

/-- C6 counterexample: offer 7 with relevance 50 < 65 is excluded from the
ranked pool, yet in a run whose earlier passes fall short the rescue pass
publishes it — `collect_relaxed` re-collects it from the raw feed with no
relevance gate, so "never published regardless of discount or EV" fails. -/
theorem relevance_gate_counterexample :
    buildRanked iaLow 65 (fun _ => 0) [offerLowIa] = [] ∧
    (publish_with_rescue [] 1 (fun _ => true) (fun _ => true)
      (some (collect_relaxed 4.7 0.15 100 (heuristic_score (fun _ => 0))
        [offerLowIa]))).pubs = [7] := by
  have hkeep : relaxed_keep 4.7 0.15 100 offerLowIa = true := by
    norm_num [relaxed_keep, offerLowIa, max_def]
  have hcoll : collect_relaxed 4.7 0.15 100 (heuristic_score (fun _ => 0))
      [offerLowIa] = [offerLowIa] := by
    unfold collect_relaxed
    rw [List.filter_cons_of_pos hkeep]
    rfl
  constructor
  · rw [buildRanked_cons_low (show iaLow offerLowIa.pid = some 50 from rfl)
      (by norm_num)]
    rfl
  · rw [hcoll]
    decide

/-- C2 counterexample: the rescue pool produced by `collect_relaxed` is
ordered by descending heuristic pre-score, not never-posted-first — with
previously-posted high-score offer 11 and never-posted low-score offer 12
the pool is [11, 12], violating the claimed prioritization, and the
rescue pass indeed attempts and publishes the previously-posted offer 11
first.  (No relaxed cooldown fraction and no rescue-specific cap exist in
the code either; see the amended theorem.) -/
theorem rescue_pass_counterexample :
    collect_relaxed 4.7 0.15 100 (heuristic_score (fun _ => 0)) [offerX, offerY] =
      [offerX, offerY] ∧
    lastPostedXY offerX.pid = some 0 ∧ lastPostedXY offerY.pid = none ∧
    ¬ rescue_prioritized lastPostedXY
      (collect_relaxed 4.7 0.15 100 (heuristic_score (fun _ => 0)) [offerX, offerY]) ∧
    (publish_with_rescue [] 1 (fun _ => true) (fun _ => true)
      (some (collect_relaxed 4.7 0.15 100 (heuristic_score (fun _ => 0))
        [offerX, offerY]))).pubs = [11] := by
  have hkX : relaxed_keep 4.7 0.15 100 offerX = true := by
    norm_num [relaxed_keep, offerX, max_def]
  have hkY : relaxed_keep 4.7 0.15 100 offerY = true := by
    norm_num [relaxed_keep, offerY, max_def]
  have hdd : dedupe_by_signature (heuristic_score (fun _ => 0)) [offerX, offerY] =
      [offerX, offerY] := by
    rfl
  have hins1 : insertByScore (heuristic_score (fun _ => 0)) offerX [] = [offerX] := rfl
  have hins2 : insertByScore (heuristic_score (fun _ => 0)) offerY [offerX] =
      [offerX, offerY] := by
    unfold insertByScore
    rw [if_pos (by norm_num [heuristic_score, offerX, offerY, max_def, min_def])]
    rfl
  have hsort : sortByScoreDesc (heuristic_score (fun _ => 0)) [offerX, offerY] =
      [offerX, offerY] := by
    unfold sortByScoreDesc
    simp only [List.foldl]
    rw [hins1, hins2]
  have hcoll : collect_relaxed 4.7 0.15 100 (heuristic_score (fun _ => 0))
      [offerX, offerY] = [offerX, offerY] := by
    unfold collect_relaxed
    rw [List.filter_cons_of_pos hkX, List.filter_cons_of_pos hkY, List.filter_nil,
      hdd, hsort]
  refine ⟨hcoll, rfl, rfl, ?_, ?_⟩
  · rw [hcoll]
    unfold rescue_prioritized
    intro hpw
    have := (List.pairwise_cons.mp hpw).1 offerY (List.mem_cons_self _ _)
    exact Option.noConfusion (this rfl)
  · rw [hcoll]
    decide

/-- C2 amended: the rescue pass draws from `collect_relaxed` — relaxed
quality thresholds, signature dedupe, descending heuristic pre-score
order (not never-posted-first) — and accepts candidates against the same
nominal cooldown predicate (`can_repost` with the unmodified
`cooldownDays`; no relaxation fraction exists) used by the earlier
passes: every id ever handed to the publish function passes that nominal
check, and the only cap on rescue publishes is the run-wide `max_posts`
target (no rescue-specific hard cap exists). -/
theorem rescue_pass_behaviour (minRating minDiscount : ℚ) (minSalesDefault : Nat)
    (hscore : Product → ℚ) (gross ranked : List Product) (maxPosts : Nat)
    (now : Int) (lastPosted : Nat → Option Int) (cooldownDays : Int)
    (pub : Product → Bool) :
    (collect_relaxed minRating minDiscount minSalesDefault hscore gross).Pairwise
      (fun a b => hscore b ≤ hscore a) ∧
    (∀ x ∈ (publish_with_rescue ranked maxPosts
        (fun pid => can_repost now (lastPosted pid) cooldownDays) pub
        (some (collect_relaxed minRating minDiscount minSalesDefault hscore gross))).pubs,
      can_repost now (lastPosted x) cooldownDays = true) ∧
    (publish_with_rescue ranked maxPosts
        (fun pid => can_repost now (lastPosted pid) cooldownDays) pub
        (some (collect_relaxed minRating minDiscount minSalesDefault hscore gross))).posted
      ≤ maxPosts := by
  refine ⟨collect_relaxed_sorted minRating minDiscount minSalesDefault hscore gross,
    ?_, ?_⟩
  · intro x hx
    exact (publish_with_rescue_inv ranked maxPosts
      (fun pid => can_repost now (lastPosted pid) cooldownDays) pub
      (some (collect_relaxed minRating minDiscount minSalesDefault hscore gross))).2.2.2.2
      x hx
  · exact (publish_with_rescue_inv ranked maxPosts
      (fun pid => can_repost now (lastPosted pid) cooldownDays) pub
      (some (collect_relaxed minRating minDiscount minSalesDefault hscore gross))).1

end ShopeeBot
